import Mathlib

/-!
Shallow embedding of the fuzzy-match + similarity-ranking recommendation
engine of `src/app.py` (functions `normalize_text`, `smart_match_movie`,
`robust_recommend`, and the derived data `title_list`), together with
theorems checking the natural-language specification against it.

Modelling conventions:
* Python strings are Lean `String`s restricted to their ASCII behaviour
  (`str.lower`, `str.strip`, the regexes `[^a-z\s]` and `\s+`).
* Python floats are modelled as rationals `ℚ`; `numpy` similarity scores
  are abstracted as a per-index score row `scoresFor` carried by the
  environment (the claims under study hold for every score row, so this
  is only a strengthening).
* The external `rapidfuzz` scorers `fuzz.WRatio` and `fuzz.partial_ratio`
  are abstract score functions `wScore` / `pScore` carried by the
  environment; `process.extractOne` is embedded concretely (best score,
  first winner on ties).
* `np.argsort(scores)[::-1][:30]` is embedded as a comparison sort of the
  index range, reversed and truncated; the claims never depend on the
  order of tied scores (which `np.argsort`'s default kind leaves
  unspecified anyway).
* The only run-time failure reachable in `robust_recommend` is the
  `.index[0]` lookup on an empty selection; the embedding returns
  `Option`, with `none` marking that `IndexError`.
-/

/-- Characters matched by Python's regex class `\s` (ASCII fragment). -/
def isPySpace (c : Char) : Bool :=
  c = ' ' || c = '\t' || c = '\n' || c = '\r' || c = '\x0b' || c = '\x0c'

/-- Characters matched by the regex class `[a-z]`. -/
def isLowerAlpha (c : Char) : Bool :=
  'a' ≤ c && c ≤ 'z'

/-- Python `str.lower()` (ASCII fragment): lower-case every character. -/
def pyLower (s : String) : String :=
  String.mk (s.data.map Char.toLower)

/-- Drop leading and trailing whitespace characters from a character list. -/
def stripChars (l : List Char) : List Char :=
  ((l.dropWhile isPySpace).reverse.dropWhile isPySpace).reverse

/-- Python `str.strip()`: drop leading and trailing whitespace. -/
def pyStrip (s : String) : String :=
  String.mk (stripChars s.data)

/-- Python `s.lower().strip()`, as used for `movies["clean_title"]`
(line 96 of `app.py`) and for the query inside `smart_match_movie`
(line 126). -/
def lowerStrip (s : String) : String :=
  pyStrip (pyLower s)

/-- Replace every maximal run of whitespace characters by a single space:
the effect of `re.sub(r"\s+", " ", text)`. -/
def collapseWs : List Char → List Char
  | [] => []
  | [c] => [if isPySpace c then ' ' else c]
  | c :: d :: rest =>
    if isPySpace c && isPySpace d then collapseWs (d :: rest)
    else (if isPySpace c then ' ' else c) :: collapseWs (d :: rest)

/-- Python values that reach `normalize_text`: the function is called on
strings, but coerces any value with `str(...)` first, so `None` is a
legitimate input. -/
inductive PyInput where
  | pyNone : PyInput
  | pyStr (s : String) : PyInput

/-- Python `str(...)` on the modelled inputs: `str(None)` is `"None"`. -/
def strOfPy : PyInput → String
  | PyInput.pyNone => "None"
  | PyInput.pyStr s => s

/-- Embedding of `normalize_text` (lines 105-108 of `app.py`) on strings:
lower-case, replace every character outside `[a-z\s]` by a space,
collapse whitespace runs, and strip. -/
def normalize_text (text : String) : String :=
  let lowered := (pyLower text).data
  let cleaned := lowered.map (fun c => if isLowerAlpha c || isPySpace c then c else ' ')
  String.mk (stripChars (collapseWs cleaned))

/-- Embedding of `normalize_text` including the `str(...)` coercion of its
first line, so that the Python call `normalize_text(None)` is representable. -/
def normalize_text_py (x : PyInput) : String :=
  normalize_text (strOfPy x)

/-- Environment consumed by the engine: the loaded catalog (display titles,
in order) and the external numeric collaborators.  `scoresFor idx` stands
for the row `cosine_similarity(vectors[idx], vectors)[0]` of line 152
(float values abstracted as rationals); `wScore` and `pScore` stand for
the `rapidfuzz` scorers `fuzz.WRatio` and `fuzz.partial_ratio`, already
applied to the query as first argument. -/
structure Env where
  titles : List String
  scoresFor : ℕ → List ℚ
  wScore : String → String → ℚ
  pScore : String → String → ℚ

/-- Loader invariant (spec section 3): each score row has one entry per
catalog entry.  The core trusts this; theorems that need it take it as a
hypothesis. -/
def Env.Wf (env : Env) : Prop :=
  ∀ i < env.titles.length, (env.scoresFor i).length = env.titles.length

/-- Embedding of `movies["clean_title"]` (line 96): `title.lower().strip()`. -/
def cleanTitle (t : String) : String :=
  lowerStrip t

/-- Embedding of `title_list` (line 97): the clean titles, in catalog order. -/
def title_list (env : Env) : List String :=
  env.titles.map cleanTitle

/-- Scan step of `rapidfuzz.process.extractOne`: keep the incumbent unless a
candidate scores strictly higher (so the first of several tied maxima wins). -/
def extractOneAux (scorer : String → ℚ) : List String → String × ℚ → String × ℚ
  | [], best => best
  | c :: rest, best =>
    extractOneAux scorer rest (if best.2 < scorer c then (c, scorer c) else best)

/-- Embedding of `rapidfuzz.process.extractOne(query, choices, scorer)` with
the scorer already applied to the query: `none` exactly when the candidate
list is empty, otherwise the best-scoring candidate with its score. -/
def extractOne (scorer : String → ℚ) : List String → Option (String × ℚ)
  | [] => none
  | c :: rest => some (extractOneAux scorer rest (c, scorer c))

/-- Second pass of `smart_match_movie` (lines 132-134): best
`fuzz.partial_ratio` candidate, accepted at score 85 or better. -/
def secondPass (env : Env) (q : String) : Option String :=
  match extractOne (env.pScore q) (title_list env) with
  | some best => if 85 ≤ best.2 then some best.1 else none
  | none => none

/-- Embedding of `smart_match_movie` (lines 125-136): lower-case and strip
the input, accept the best `fuzz.WRatio` candidate at score 80 or better,
otherwise fall through to the `fuzz.partial_ratio` pass, otherwise report
no match. -/
def smart_match_movie (env : Env) (user_input : String) : Option String :=
  let q := lowerStrip user_input
  match extractOne (env.wScore q) (title_list env) with
  | some best =>
    if 80 ≤ best.2 then some best.1 else secondPass env q
  | none => secondPass env q

/-- Rounding of a rational to the nearest integer, halves to the even
neighbour: the idealization of Python's built-in `round` on floats. -/
def roundHalfEven (q : ℚ) : ℤ :=
  if q - ((⌊q⌋ : ℤ) : ℚ) < 1/2 then ⌊q⌋
  else if 1/2 < q - ((⌊q⌋ : ℤ) : ℚ) then ⌊q⌋ + 1
  else if ⌊q⌋ % 2 = 0 then ⌊q⌋ else ⌊q⌋ + 1

/-- Python `round(q, 2)`: round to two decimal places. -/
def pyRound2 (q : ℚ) : ℚ :=
  ((roundHalfEven (q * 100) : ℤ) : ℚ) / 100

/-- Insertion step of the comparison sort used to embed `np.argsort`. -/
def ordInsert (le : ℕ → ℕ → Bool) (i : ℕ) : List ℕ → List ℕ
  | [] => [i]
  | j :: rest => if le i j then i :: j :: rest else j :: ordInsert le i rest

/-- Comparison sort (ascending with respect to `le`) used to embed
`np.argsort`. -/
def insSort (le : ℕ → ℕ → Bool) : List ℕ → List ℕ
  | [] => []
  | i :: rest => ordInsert le i (insSort le rest)

/-- Embedding of `np.argsort(scores)`: the indices `0..n-1` ordered by
ascending score.  The order of tied scores is unspecified upstream
(`np.argsort`'s default kind is not stable); this embedding fixes one
deterministic choice, and no claim depends on it. -/
def argsort (s : List ℚ) : List ℕ :=
  insSort (fun i j => decide (s.getD i 0 ≤ s.getD j 0)) (List.range s.length)

/-- Score row after line 153 (`scores[idx] = 0.0`): the resolved entry's
own similarity is forced to zero. -/
def rankScores (env : Env) (idx : ℕ) : List ℚ :=
  (env.scoresFor idx).set idx 0

/-- Embedding of `top_indices = np.argsort(scores)[::-1][:30]` (line 155):
the ranking pool, in descending score order. -/
def topIndices (env : Env) (idx : ℕ) : List ℕ :=
  ((argsort (rankScores env idx)).reverse).take 30

/-- Embedding of `mean_score = np.mean(scores[top_indices])` (line 156). -/
def meanScore (env : Env) (idx : ℕ) : ℚ :=
  ((topIndices env idx).map (fun i => (rankScores env idx).getD i 0)).sum
    / ((topIndices env idx).length : ℚ)

/-- Embedding of `threshold = max(mean_score * 0.8, 0.12)` (line 157). -/
def threshold (env : Env) (idx : ℕ) : ℚ :=
  max (meanScore env idx * (8/10)) (12/100)

/-- Embedding of the accumulation loop of lines 159-164: walk the pool,
append `(title, round(score * 100, 2))` for entries at or above the
threshold, and stop as soon as the result length equals `top_n`. -/
def acceptLoop (env : Env) (idx : ℕ) (top_n : ℤ) :
    List ℕ → List (String × ℚ) → List (String × ℚ)
  | [], results => results
  | i :: rest, results =>
    let s := (rankScores env idx).getD i 0
    let results' :=
      if threshold env idx ≤ s
      then results ++ [(env.titles.getD i "", pyRound2 (s * 100))]
      else results
    if (results'.length : ℤ) = top_n then results'
    else acceptLoop env idx top_n rest results'

/-- Embedding of the Similarity Ranker part of `robust_recommend`
(lines 152-166), given the resolved catalog index. -/
def rank (env : Env) (idx : ℕ) (top_n : ℤ) : List (String × ℚ) :=
  acceptLoop env idx top_n (topIndices env idx) []

/-- Embedding of line 145: exact-membership short-circuit, else the fuzzy
resolver. -/
def resolveTitle (env : Env) (movie_name : String) : Option String :=
  if movie_name ∈ title_list env then some movie_name
  else smart_match_movie env movie_name

/-- Embedding of lines 145-166 of `robust_recommend`, after the
normalization and empty-input check: resolve the title (a falsy result,
`None` or the empty string, returns `[]`), locate the first catalog index
with that clean title, and rank.  The outer `none` marks the `IndexError`
that `.index[0]` would raise on an empty selection (proved unreachable
below). -/
def recommendCore (env : Env) (movie_name : String) (top_n : ℤ) :
    Option (List (String × ℚ)) :=
  match resolveTitle env movie_name with
  | none => some []
  | some matched =>
    if matched = "" then some []
    else
      match (title_list env).findIdx? (fun t => t = matched) with
      | none => none
      | some idx => some (rank env idx top_n)

/-- Embedding of `robust_recommend` (lines 140-166): normalize the raw
input (with Python's `str(...)` coercion), short-circuit empty input,
then resolve and rank. -/
def robust_recommend (env : Env) (x : PyInput) (top_n : ℤ) :
    Option (List (String × ℚ)) :=
  let movie_name := normalize_text_py x
  if movie_name = "" then some []
  else recommendCore env movie_name top_n

/-- Formalization of the spec's description of the ranking walk (spec
section 4.3, steps 5-6, as quoted by claim C3): keep the pool entries at
or above the threshold, in descending-score pool order, truncated to the
first `top_n`. -/
def rankSpec (env : Env) (idx : ℕ) (top_n : ℤ) : List (String × ℚ) :=
  (((topIndices env idx).filter
      (fun i => decide (threshold env idx ≤ (rankScores env idx).getD i 0))).take
    top_n.toNat).map
    (fun i => (env.titles.getD i "", pyRound2 ((rankScores env idx).getD i 0 * 100)))

/-- Concrete three-entry environment used to instantiate the theorems: the
similarity row of every entry is `[0.9, 0.8, 0.7]`, and the fuzzy scorers
are simple concrete functions. -/
def exEnv : Env where
  titles := ["Inception", "Batman", "Avatar"]
  scoresFor := fun _ => [9/10, 8/10, 7/10]
  wScore := fun q t => if q = t then 100 else if t = "inception" then 90 else 10
  pScore := fun _ _ => 50

/-- Property stated by the spec for the Fuzzy Title Resolver (section 4.2,
steps 2-3, as quoted by claim C4): both passes produce a best-scoring
catalog candidate, and the resolver returns the weighted-ratio winner at
score 80 or better, else the partial-ratio winner at score 85 or better,
else no match. -/
def fuzzyResolverSpec (env : Env) (ui : String) : Prop :=
  ∃ c1 s1 c2 s2,
    extractOne (env.wScore (lowerStrip ui)) (title_list env) = some (c1, s1) ∧
    c1 ∈ title_list env ∧ s1 = env.wScore (lowerStrip ui) c1 ∧
    (∀ t ∈ title_list env, env.wScore (lowerStrip ui) t ≤ s1) ∧
    extractOne (env.pScore (lowerStrip ui)) (title_list env) = some (c2, s2) ∧
    c2 ∈ title_list env ∧ s2 = env.pScore (lowerStrip ui) c2 ∧
    (∀ t ∈ title_list env, env.pScore (lowerStrip ui) t ≤ s2) ∧
    smart_match_movie env ui =
      (if 80 ≤ s1 then some c1 else if 85 ≤ s2 then some c2 else none)

theorem roundHalfEven_le_floor_add_one (q : ℚ) : roundHalfEven q ≤ ⌊q⌋ + 1 := by
  unfold roundHalfEven
  split_ifs <;> omega

theorem floor_le_roundHalfEven (q : ℚ) : ⌊q⌋ ≤ roundHalfEven q := by
  unfold roundHalfEven
  split_ifs <;> omega

theorem roundHalfEven_mono {a b : ℚ} (h : a ≤ b) :
    roundHalfEven a ≤ roundHalfEven b := by
  have hfl : ⌊a⌋ ≤ ⌊b⌋ := Int.floor_le_floor h
  rcases lt_or_eq_of_le hfl with hlt | heq
  · have h1 := roundHalfEven_le_floor_add_one a
    have h2 := floor_le_roundHalfEven b
    omega
  · have hfa : ((⌊a⌋ : ℤ) : ℚ) = ((⌊b⌋ : ℤ) : ℚ) := by exact_mod_cast heq
    have hr : a - ((⌊a⌋ : ℤ) : ℚ) ≤ b - ((⌊b⌋ : ℤ) : ℚ) := by
      rw [hfa]; linarith
    unfold roundHalfEven
    split_ifs <;> first | omega | linarith

theorem pyRound2_mono {a b : ℚ} (h : a ≤ b) : pyRound2 a ≤ pyRound2 b := by
  unfold pyRound2
  have h1 : roundHalfEven (a * 100) ≤ roundHalfEven (b * 100) :=
    roundHalfEven_mono (by linarith)
  have h2 : ((roundHalfEven (a * 100) : ℤ) : ℚ) ≤ ((roundHalfEven (b * 100) : ℤ) : ℚ) := by
    exact_mod_cast h1
  linarith

theorem extractOneAux_spec (f : String → ℚ) (l : List String) (best : String × ℚ) :
    (extractOneAux f l best = best ∨
      ((extractOneAux f l best).1 ∈ l ∧
        (extractOneAux f l best).2 = f (extractOneAux f l best).1)) ∧
    best.2 ≤ (extractOneAux f l best).2 ∧
    ∀ t ∈ l, f t ≤ (extractOneAux f l best).2 := by
  induction l generalizing best with
  | nil => simp [extractOneAux]
  | cons c rest ih =>
    simp only [extractOneAux]
    by_cases hc : best.2 < f c
    · rw [if_pos hc]
      obtain ⟨h1, h2, h3⟩ := ih (c, f c)
      refine ⟨?_, ?_, ?_⟩
      · rcases h1 with h1 | h1
        · right
          rw [h1]
          exact ⟨List.mem_cons_self c rest, rfl⟩
        · right
          exact ⟨List.mem_cons_of_mem _ h1.1, h1.2⟩
      · exact le_trans (le_of_lt hc) h2
      · intro t ht
        rcases List.mem_cons.mp ht with rfl | ht
        · exact h2
        · exact h3 t ht
    · rw [if_neg hc]
      obtain ⟨h1, h2, h3⟩ := ih best
      push_neg at hc
      refine ⟨?_, h2, ?_⟩
      · rcases h1 with h1 | h1
        · exact Or.inl h1
        · exact Or.inr ⟨List.mem_cons_of_mem _ h1.1, h1.2⟩
      · intro t ht
        rcases List.mem_cons.mp ht with rfl | ht
        · exact le_trans hc h2
        · exact h3 t ht

theorem extractOne_spec (f : String → ℚ) (l : List String) (p : String × ℚ)
    (h : extractOne f l = some p) :
    p.1 ∈ l ∧ p.2 = f p.1 ∧ ∀ t ∈ l, f t ≤ p.2 := by
  cases l with
  | nil => simp [extractOne] at h
  | cons c rest =>
    simp only [extractOne, Option.some.injEq] at h
    subst h
    obtain ⟨h1, h2, h3⟩ := extractOneAux_spec f rest (c, f c)
    refine ⟨?_, ?_, ?_⟩
    · rcases h1 with h1 | h1
      · rw [h1]; exact List.mem_cons_self c rest
      · exact List.mem_cons_of_mem _ h1.1
    · rcases h1 with h1 | h1
      · rw [h1]
      · exact h1.2
    · intro t ht
      rcases List.mem_cons.mp ht with rfl | ht
      · exact h2
      · exact h3 t ht

theorem extractOne_isSome (f : String → ℚ) (l : List String) (h : l ≠ []) :
    (extractOne f l).isSome := by
  cases l with
  | nil => exact absurd rfl h
  | cons c rest => simp [extractOne]

theorem secondPass_mem (env : Env) (q t : String)
    (h : secondPass env q = some t) : t ∈ title_list env := by
  cases he : extractOne (env.pScore q) (title_list env) with
  | none => simp [secondPass, he] at h
  | some best =>
    simp only [secondPass, he] at h
    by_cases hs : 85 ≤ best.2
    · rw [if_pos hs] at h
      cases h
      exact (extractOne_spec _ _ _ he).1
    · rw [if_neg hs] at h
      exact absurd h (by simp)

theorem smart_match_movie_mem (env : Env) (q t : String)
    (h : smart_match_movie env q = some t) : t ∈ title_list env := by
  simp only [smart_match_movie] at h
  cases he : extractOne (env.wScore (lowerStrip q)) (title_list env) with
  | none =>
    rw [he] at h
    exact secondPass_mem env _ t h
  | some best =>
    rw [he] at h
    simp only [] at h
    by_cases hs : 80 ≤ best.2
    · rw [if_pos hs] at h
      cases h
      exact (extractOne_spec _ _ _ he).1
    · rw [if_neg hs] at h
      exact secondPass_mem env _ t h

theorem ordInsert_perm (le : ℕ → ℕ → Bool) (i : ℕ) (l : List ℕ) :
    (ordInsert le i l).Perm (i :: l) := by
  induction l with
  | nil => simp [ordInsert]
  | cons j rest ih =>
    simp only [ordInsert]
    by_cases h : le i j = true
    · rw [if_pos h]
    · rw [if_neg h]
      exact (ih.cons j).trans (List.Perm.swap i j rest)

theorem insSort_perm (le : ℕ → ℕ → Bool) (l : List ℕ) :
    (insSort le l).Perm l := by
  induction l with
  | nil => simp [insSort]
  | cons i rest ih =>
    exact (ordInsert_perm le i _).trans (ih.cons i)

theorem ordInsert_pairwise (le : ℕ → ℕ → Bool)
    (htot : ∀ a b, le a b = true ∨ le b a = true)
    (htrans : ∀ a b c, le a b = true → le b c = true → le a c = true)
    (i : ℕ) (l : List ℕ) (hl : l.Pairwise (fun a b => le a b = true)) :
    (ordInsert le i l).Pairwise (fun a b => le a b = true) := by
  induction l with
  | nil => simp [ordInsert]
  | cons j rest ih =>
    rcases List.pairwise_cons.mp hl with ⟨hj, hrest⟩
    simp only [ordInsert]
    by_cases h : le i j = true
    · rw [if_pos h]
      refine List.pairwise_cons.mpr ⟨?_, hl⟩
      intro b hb
      rcases List.mem_cons.mp hb with rfl | hb
      · exact h
      · exact htrans i j b h (hj b hb)
    · rw [if_neg h]
      refine List.pairwise_cons.mpr ⟨?_, ih hrest⟩
      intro b hb
      have hmem := (ordInsert_perm le i rest).mem_iff.mp hb
      rcases List.mem_cons.mp hmem with rfl | hb'
      · rcases htot b j with h' | h'
        · exact absurd h' h
        · exact h'
      · exact hj b hb'

theorem insSort_pairwise (le : ℕ → ℕ → Bool)
    (htot : ∀ a b, le a b = true ∨ le b a = true)
    (htrans : ∀ a b c, le a b = true → le b c = true → le a c = true)
    (l : List ℕ) :
    (insSort le l).Pairwise (fun a b => le a b = true) := by
  induction l with
  | nil => simp [insSort]
  | cons i rest ih => exact ordInsert_pairwise le htot htrans i _ ih

theorem argsort_perm (s : List ℚ) :
    (argsort s).Perm (List.range s.length) :=
  insSort_perm _ _

theorem argsort_pairwise (s : List ℚ) :
    (argsort s).Pairwise (fun i j => s.getD i 0 ≤ s.getD j 0) := by
  have h := insSort_pairwise (fun i j => decide (s.getD i 0 ≤ s.getD j 0))
    (fun a b => by
      rcases le_total (s.getD a 0) (s.getD b 0) with h | h
      · exact Or.inl (decide_eq_true h)
      · exact Or.inr (decide_eq_true h))
    (fun a b c hab hbc =>
      decide_eq_true (le_trans (of_decide_eq_true hab) (of_decide_eq_true hbc)))
    (List.range s.length)
  exact h.imp (fun hab => of_decide_eq_true hab)

theorem topIndices_pairwise (env : Env) (idx : ℕ) :
    (topIndices env idx).Pairwise
      (fun i j => (rankScores env idx).getD j 0 ≤ (rankScores env idx).getD i 0) := by
  unfold topIndices
  exact List.Pairwise.sublist (List.take_sublist _ _)
    (List.pairwise_reverse.mpr (argsort_pairwise _))

theorem topIndices_mem_lt (env : Env) (idx i : ℕ)
    (hi : i ∈ topIndices env idx) : i < (rankScores env idx).length := by
  unfold topIndices at hi
  have h1 : i ∈ (argsort (rankScores env idx)).reverse := List.take_subset _ _ hi
  have h2 : i ∈ argsort (rankScores env idx) := List.mem_reverse.mp h1
  have h3 : i ∈ List.range (rankScores env idx).length :=
    (argsort_perm _).mem_iff.mp h2
  exact List.mem_range.mp h3

theorem topIndices_length (env : Env) (idx : ℕ) :
    (topIndices env idx).length = min 30 (rankScores env idx).length := by
  unfold topIndices
  rw [List.length_take, List.length_reverse, (argsort_perm _).length_eq,
    List.length_range]

theorem threshold_pos (env : Env) (idx : ℕ) : 0 < threshold env idx :=
  lt_of_lt_of_le (by norm_num) (le_max_right _ _)

theorem acceptLoop_mem (env : Env) (idx : ℕ) (top_n : ℤ)
    (pool : List ℕ) (res : List (String × ℚ)) (p : String × ℚ)
    (hp : p ∈ acceptLoop env idx top_n pool res) :
    p ∈ res ∨ ∃ i ∈ pool, threshold env idx ≤ (rankScores env idx).getD i 0 ∧
      p = (env.titles.getD i "", pyRound2 ((rankScores env idx).getD i 0 * 100)) := by
  induction pool generalizing res with
  | nil => exact Or.inl hp
  | cons i rest ih =>
    simp only [acceptLoop] at hp
    by_cases hpass : threshold env idx ≤ (rankScores env idx).getD i 0
    · rw [if_pos hpass] at hp
      have hsplit : p ∈ res ++ [(env.titles.getD i "", pyRound2 ((rankScores env idx).getD i 0 * 100))] →
          p ∈ res ∨ ∃ j ∈ i :: rest, threshold env idx ≤ (rankScores env idx).getD j 0 ∧
            p = (env.titles.getD j "", pyRound2 ((rankScores env idx).getD j 0 * 100)) := by
        intro hmem
        rcases List.mem_append.mp hmem with hmem | hmem
        · exact Or.inl hmem
        · rcases List.mem_singleton.mp hmem with rfl
          exact Or.inr ⟨i, List.mem_cons_self i rest, hpass, rfl⟩
      by_cases hbr : (((res ++ [(env.titles.getD i "", pyRound2 ((rankScores env idx).getD i 0 * 100))]).length : ℤ)) = top_n
      · rw [if_pos hbr] at hp
        exact hsplit hp
      · rw [if_neg hbr] at hp
        rcases ih _ hp with hmem | ⟨j, hj, hjp⟩
        · exact hsplit hmem
        · exact Or.inr ⟨j, List.mem_cons_of_mem i hj, hjp⟩
    · rw [if_neg hpass] at hp
      by_cases hbr : ((res.length : ℤ)) = top_n
      · rw [if_pos hbr] at hp
        exact Or.inl hp
      · rw [if_neg hbr] at hp
        rcases ih _ hp with hmem | ⟨j, hj, hjp⟩
        · exact Or.inl hmem
        · exact Or.inr ⟨j, List.mem_cons_of_mem i hj, hjp⟩

theorem acceptLoop_pairwise (env : Env) (idx : ℕ) (top_n : ℤ)
    (pool : List ℕ) (res : List (String × ℚ))
    (hpool : pool.Pairwise
      (fun i j => (rankScores env idx).getD j 0 ≤ (rankScores env idx).getD i 0))
    (hres : res.Pairwise (fun p q => q.2 ≤ p.2))
    (hcross : ∀ p ∈ res, ∀ i ∈ pool,
      pyRound2 ((rankScores env idx).getD i 0 * 100) ≤ p.2) :
    (acceptLoop env idx top_n pool res).Pairwise (fun p q => q.2 ≤ p.2) := by
  induction pool generalizing res with
  | nil => exact hres
  | cons i rest ih =>
    rcases List.pairwise_cons.mp hpool with ⟨hi, hrest⟩
    simp only [acceptLoop]
    by_cases hpass : threshold env idx ≤ (rankScores env idx).getD i 0
    · rw [if_pos hpass]
      have hres' : (res ++ [(env.titles.getD i "", pyRound2 ((rankScores env idx).getD i 0 * 100))]).Pairwise
          (fun p q => q.2 ≤ p.2) := by
        rw [List.pairwise_append]
        refine ⟨hres, List.pairwise_singleton _ _, ?_⟩
        intro p hp q hq
        rcases List.mem_singleton.mp hq with rfl
        exact hcross p hp i (List.mem_cons_self i rest)
      have hcross' : ∀ p ∈ res ++ [(env.titles.getD i "", pyRound2 ((rankScores env idx).getD i 0 * 100))],
          ∀ j ∈ rest, pyRound2 ((rankScores env idx).getD j 0 * 100) ≤ p.2 := by
        intro p hp j hj
        rcases List.mem_append.mp hp with hp | hp
        · exact hcross p hp j (List.mem_cons_of_mem i hj)
        · rcases List.mem_singleton.mp hp with rfl
          exact pyRound2_mono (by
            have := hi j hj
            nlinarith)
      by_cases hbr : (((res ++ [(env.titles.getD i "", pyRound2 ((rankScores env idx).getD i 0 * 100))]).length : ℤ)) = top_n
      · rw [if_pos hbr]
        exact hres'
      · rw [if_neg hbr]
        exact ih _ hrest hres' hcross'
    · rw [if_neg hpass]
      by_cases hbr : ((res.length : ℤ)) = top_n
      · rw [if_pos hbr]
        exact hres
      · rw [if_neg hbr]
        exact ih _ hrest hres
          (fun p hp j hj => hcross p hp j (List.mem_cons_of_mem i hj))

theorem acceptLoop_eq_take (env : Env) (idx : ℕ) (top_n : ℤ)
    (pool : List ℕ) (res : List (String × ℚ))
    (h : (res.length : ℤ) < top_n) :
    acceptLoop env idx top_n pool res =
      res ++ ((pool.filter
          (fun i => decide (threshold env idx ≤ (rankScores env idx).getD i 0))).take
        (top_n - res.length).toNat).map
        (fun i => (env.titles.getD i "", pyRound2 ((rankScores env idx).getD i 0 * 100))) := by
  induction pool generalizing res with
  | nil => simp [acceptLoop]
  | cons i rest ih =>
    simp only [acceptLoop]
    by_cases hpass : threshold env idx ≤ (rankScores env idx).getD i 0
    · rw [if_pos hpass]
      have hf : (List.filter
            (fun i => decide (threshold env idx ≤ (rankScores env idx).getD i 0))
            (i :: rest)) =
          i :: List.filter
            (fun i => decide (threshold env idx ≤ (rankScores env idx).getD i 0))
            rest := by
        simp only [List.filter_cons, decide_eq_true_eq]
        rw [if_pos hpass]
      rw [hf]
      by_cases hbr : (((res ++ [(env.titles.getD i "", pyRound2 ((rankScores env idx).getD i 0 * 100))]).length : ℤ)) = top_n
      · rw [if_pos hbr]
        have hk : (top_n - res.length).toNat = 1 := by
          rw [List.length_append, List.length_singleton] at hbr
          omega
        rw [hk]
        simp
      · rw [if_neg hbr]
        have hlen : (((res ++ [(env.titles.getD i "", pyRound2 ((rankScores env idx).getD i 0 * 100))]).length : ℤ)) < top_n := by
          rw [List.length_append, List.length_singleton] at hbr ⊢
          push_cast
          omega
        rw [ih _ hlen]
        obtain ⟨m, hm⟩ : ∃ m, (top_n - res.length).toNat = m + 1 := by
          refine ⟨(top_n - res.length).toNat - 1, ?_⟩
          omega
        have hm' : (top_n - ((res ++ [(env.titles.getD i "", pyRound2 ((rankScores env idx).getD i 0 * 100))]).length : ℤ)).toNat = m := by
          rw [List.length_append, List.length_singleton]
          push_cast
          omega
        rw [hm, hm', List.take_succ_cons, List.map_cons, List.append_assoc,
          List.singleton_append]
    · rw [if_neg hpass]
      have hbr : ¬ ((res.length : ℤ)) = top_n := by omega
      rw [if_neg hbr]
      have hf : (List.filter
            (fun i => decide (threshold env idx ≤ (rankScores env idx).getD i 0))
            (i :: rest)) =
          List.filter
            (fun i => decide (threshold env idx ≤ (rankScores env idx).getD i 0))
            rest := by
        simp only [List.filter_cons, decide_eq_true_eq]
        rw [if_neg hpass]
      rw [hf]
      exact ih _ h

theorem rank_pairwise (env : Env) (idx : ℕ) (top_n : ℤ) :
    (rank env idx top_n).Pairwise (fun p q => q.2 ≤ p.2) :=
  acceptLoop_pairwise env idx top_n _ [] (topIndices_pairwise env idx)
    List.Pairwise.nil (by intro p hp; cases hp)

theorem rank_mem (env : Env) (idx : ℕ) (top_n : ℤ) (p : String × ℚ)
    (hp : p ∈ rank env idx top_n) :
    ∃ i ∈ topIndices env idx,
      threshold env idx ≤ (rankScores env idx).getD i 0 ∧
      p = (env.titles.getD i "", pyRound2 ((rankScores env idx).getD i 0 * 100)) := by
  rcases acceptLoop_mem env idx top_n _ [] p hp with hmem | hmem
  · cases hmem
  · exact hmem

theorem rank_eq_rankSpec (env : Env) (idx : ℕ) (top_n : ℤ) (h : 1 ≤ top_n) :
    rank env idx top_n = rankSpec env idx top_n := by
  unfold rank rankSpec
  rw [acceptLoop_eq_take env idx top_n _ [] (by simpa using h)]
  simp

theorem topIndices_mem_of_small (env : Env) (idx : ℕ)
    (h : (rankScores env idx).length ≤ 30) :
    ∀ j < (rankScores env idx).length, j ∈ topIndices env idx := by
  intro j hj
  unfold topIndices
  rw [List.take_of_length_le (by
    rw [List.length_reverse, (argsort_perm _).length_eq, List.length_range]
    exact h)]
  rw [List.mem_reverse]
  exact (argsort_perm _).mem_iff.mpr (List.mem_range.mpr hj)

theorem rankScores_length (env : Env) (idx : ℕ) :
    (rankScores env idx).length = (env.scoresFor idx).length := by
  unfold rankScores
  exact List.length_set ..

theorem rankScores_getD_self (env : Env) (idx : ℕ)
    (h : idx < (env.scoresFor idx).length) :
    (rankScores env idx).getD idx 0 = 0 := by
  unfold rankScores
  rw [List.getD_eq_getElem?_getD, List.getElem?_set_self (by simpa using h)]
  rfl

theorem findIdx?_isSome_of_mem {l : List String} {t : String} (ht : t ∈ l) :
    (l.findIdx? (fun s => s = t)).isSome := by
  rw [List.findIdx?_isSome, List.any_eq_true]
  exact ⟨t, ht, by simp⟩


theorem robust_recommend_some_cases (env : Env) (x : PyInput) (top_n : ℤ)
    (l : List (String × ℚ)) (h : robust_recommend env x top_n = some l) :
    l = [] ∨ ∃ idx, l = rank env idx top_n := by
  simp only [robust_recommend] at h
  by_cases hm : normalize_text_py x = ""
  · rw [if_pos hm] at h
    injection h with h
    exact Or.inl h.symm
  · rw [if_neg hm] at h
    simp only [recommendCore] at h
    cases hr : resolveTitle env (normalize_text_py x) with
    | none =>
      rw [hr] at h
      simp only [] at h
      injection h with h
      exact Or.inl h.symm
    | some matched =>
      rw [hr] at h
      simp only [] at h
      by_cases hmt : matched = ""
      · rw [if_pos hmt] at h
        injection h with h
        exact Or.inl h.symm
      · rw [if_neg hmt] at h
        cases hfi : (title_list env).findIdx? (fun t => t = matched) with
        | none =>
          rw [hfi] at h
          exact absurd h (by simp)
        | some idx =>
          rw [hfi] at h
          simp only [] at h
          injection h with h
          exact Or.inr ⟨idx, h.symm⟩

theorem exEnv_wf : exEnv.Wf :=
  fun _ _ => rfl

/-- Claim C1 (corrected), counterexample to the claim as stated: for the
three-entry catalog `exEnv` (`n = 3 < 30`) with resolved index `0`, the
pool over which the adaptive threshold is computed does NOT have `n - 1`
members, and it does NOT exclude the resolved entry: `np.argsort` ranges
over all `n` indices, so the self entry stays in the pool (with its score
forced to zero). -/
theorem c1_pool_counterexample :
    (topIndices exEnv 0).length ≠ exEnv.titles.length - 1 ∧
    0 ∈ topIndices exEnv 0 := by
  have h : topIndices exEnv 0 = [1, 2, 0] := by
    norm_num [topIndices, argsort, rankScores, exEnv, insSort, ordInsert,
      List.range_succ]
  rw [h]
  exact ⟨by simp [exEnv], by simp⟩

/-- Claim C1 (corrected, amended form): for every well-formed environment
and resolved index, if the catalog has `n < 30` entries then the ranking
pool has exactly `n` members (not `n - 1`), it CONTAINS the resolved
entry itself (whose score has been forced to zero), and it is never of
size 30. -/
theorem c1_pool_whole_catalog (env : Env) (idx : ℕ) (hwf : env.Wf)
    (hidx : idx < env.titles.length) (hn : env.titles.length < 30) :
    (topIndices env idx).length = env.titles.length ∧
    idx ∈ topIndices env idx ∧
    (topIndices env idx).length ≠ 30 := by
  have hlen : (rankScores env idx).length = env.titles.length := by
    rw [rankScores_length]
    exact hwf idx hidx
  have hl : (topIndices env idx).length = env.titles.length := by
    rw [topIndices_length, hlen]
    omega
  refine ⟨hl, ?_, by omega⟩
  exact topIndices_mem_of_small env idx (by omega) idx (by omega)

/-- Witness for C1's amended theorem at the concrete environment `exEnv`. -/
theorem c1_pool_whole_catalog_witness :
    (topIndices exEnv 0).length = exEnv.titles.length ∧
    0 ∈ topIndices exEnv 0 ∧
    (topIndices exEnv 0).length ≠ 30 :=
  c1_pool_whole_catalog exEnv 0 exEnv_wf (by decide) (by decide)

/-- Claim C2 (confirmed): whenever the normalized query is verbatim a member
of the catalog's clean-title list, resolution short-circuits on the exact
membership test of line 145 and returns that very title.  The statement
holds for every environment, in particular for arbitrary fuzzy scorers
`wScore` / `pScore`: fuzzy scoring cannot influence the result. -/
theorem c2_exact_short_circuit (env : Env) (x : PyInput)
    (h : normalize_text_py x ∈ title_list env) :
    resolveTitle env (normalize_text_py x) = some (normalize_text_py x) := by
  unfold resolveTitle
  rw [if_pos h]

/-- Witness for C2 at the concrete environment `exEnv` and the query
`"Inception"`, whose normalized form `"inception"` is in the catalog. -/
theorem c2_exact_short_circuit_witness :
    resolveTitle exEnv (normalize_text_py (PyInput.pyStr "Inception")) =
      some (normalize_text_py (PyInput.pyStr "Inception")) :=
  c2_exact_short_circuit exEnv (PyInput.pyStr "Inception") (by decide)

/-- Claim C3 (corrected), counterexample to the claim as stated: with
`top_n = 0` the claim's acceptance condition ("fewer than `top_n` entries
accepted before it") accepts no entry at all, but the code's loop checks
`len(results) == top_n` only after a possible append, so with `top_n = 0`
the cap never fires and every entry clearing the threshold is returned:
on `exEnv` the call returns two entries where the claim demands none. -/
theorem c3_cap_counterexample :
    rank exEnv 0 0 = [("Batman", 80), ("Avatar", 70)] ∧
    rankSpec exEnv 0 0 = [] := by
  constructor
  · norm_num [rank, acceptLoop, threshold, meanScore, topIndices, argsort,
      rankScores, exEnv, insSort, ordInsert, List.range_succ, pyRound2,
      roundHalfEven]
  · norm_num [rankSpec, threshold, meanScore, topIndices, argsort,
      rankScores, exEnv, insSort, ordInsert, List.range_succ]

/-- Claim C3 (corrected, amended form): the acceptance threshold equals
`max(0.8 * mean, 0.12)` over the selected pool, and — provided
`top_n ≥ 1` — a pool entry contributes to the result exactly when its
score clears the threshold and fewer than `top_n` entries were accepted
before it in descending-score pool order (equivalently, the result is the
threshold-filtered pool truncated to `top_n`). -/
theorem c3_threshold_and_cap (env : Env) (idx : ℕ) (top_n : ℤ)
    (h : 1 ≤ top_n) :
    threshold env idx = max (meanScore env idx * (8/10)) (12/100) ∧
    rank env idx top_n = rankSpec env idx top_n :=
  ⟨rfl, rank_eq_rankSpec env idx top_n h⟩

/-- Witness for C3's amended theorem at `exEnv` with `top_n = 10`. -/
theorem c3_threshold_and_cap_witness :
    threshold exEnv 0 = max (meanScore exEnv 0 * (8/10)) (12/100) ∧
    rank exEnv 0 10 = rankSpec exEnv 0 10 :=
  c3_threshold_and_cap exEnv 0 10 (by norm_num)

/-- Claim C4 (confirmed): for every environment and input, as long as the
candidate list is non-empty, both fuzzy passes produce a best-scoring
catalog candidate (a true argmax over the candidate list), and
`smart_match_movie` returns the weighted-ratio winner when its score is
at least 80, otherwise the partial-ratio winner when its score is at
least 85, otherwise no match.  The function is total (never raises);
absence of a match is the normal value `none`. -/
theorem c4_fuzzy_resolver (env : Env) (ui : String)
    (h : title_list env ≠ []) : fuzzyResolverSpec env ui := by
  obtain ⟨p1, hp1⟩ := Option.isSome_iff_exists.mp
    (extractOne_isSome (env.wScore (lowerStrip ui)) _ h)
  obtain ⟨p2, hp2⟩ := Option.isSome_iff_exists.mp
    (extractOne_isSome (env.pScore (lowerStrip ui)) _ h)
  obtain ⟨hm1, hs1, hub1⟩ := extractOne_spec _ _ _ hp1
  obtain ⟨hm2, hs2, hub2⟩ := extractOne_spec _ _ _ hp2
  refine ⟨p1.1, p1.2, p2.1, p2.2, hp1, hm1, hs1, hub1, hp2, hm2, hs2, hub2, ?_⟩
  simp only [smart_match_movie]
  rw [hp1]
  simp only []
  by_cases h80 : 80 ≤ p1.2
  · rw [if_pos h80, if_pos h80]
  · rw [if_neg h80, if_neg h80]
    simp only [secondPass]
    rw [hp2]

/-- Witness for C4 at `exEnv` and the typo query `"Inceptio"`. -/
theorem c4_fuzzy_resolver_witness : fuzzyResolverSpec exEnv "Inceptio" :=
  c4_fuzzy_resolver exEnv "Inceptio" (by decide)

/-- Claim C5 (confirmed): the resolved entry's own score is forced to zero,
and every recommendation returned by the Ranker originates from a pool
index different from the resolved index — the entry is never recommended
to itself, because a returned entry's score clears the threshold, which is
at least the floor 0.12 and hence strictly above zero. -/
theorem c5_no_self_recommendation (env : Env) (idx : ℕ) (top_n : ℤ)
    (p : String × ℚ) (hwf : env.Wf) (hidx : idx < env.titles.length)
    (hp : p ∈ rank env idx top_n) :
    (rankScores env idx).getD idx 0 = 0 ∧
    ∃ i ∈ topIndices env idx, i ≠ idx ∧
      threshold env idx ≤ (rankScores env idx).getD i 0 ∧
      p = (env.titles.getD i "", pyRound2 ((rankScores env idx).getD i 0 * 100)) := by
  have hsl : idx < (env.scoresFor idx).length := by
    rw [hwf idx hidx]
    exact hidx
  have hz : (rankScores env idx).getD idx 0 = 0 := rankScores_getD_self env idx hsl
  refine ⟨hz, ?_⟩
  obtain ⟨i, hi, hpass, hpe⟩ := rank_mem env idx top_n p hp
  refine ⟨i, hi, ?_, hpass, hpe⟩
  intro hcontra
  rw [hcontra, hz] at hpass
  exact absurd hpass (not_le_of_lt (threshold_pos env idx))

/-- Witness for C5 at `exEnv`, resolved index 0, with the returned
recommendation `("Batman", 80)`. -/
theorem c5_no_self_recommendation_witness :
    (rankScores exEnv 0).getD 0 0 = 0 ∧
    ∃ i ∈ topIndices exEnv 0, i ≠ 0 ∧
      threshold exEnv 0 ≤ (rankScores exEnv 0).getD i 0 ∧
      ("Batman", (80 : ℚ)) =
        (exEnv.titles.getD i "", pyRound2 ((rankScores exEnv 0).getD i 0 * 100)) :=
  c5_no_self_recommendation exEnv 0 10 ("Batman", 80) exEnv_wf (by decide)
    (by norm_num [rank, acceptLoop, threshold, meanScore, topIndices, argsort,
      rankScores, exEnv, insSort, ordInsert, List.range_succ, pyRound2,
      roundHalfEven])

/-- Claim C6 (confirmed): whenever the normalized input is the empty string,
`robust_recommend` returns the empty sequence immediately; the result does
not depend on the catalog, the similarity scores or the fuzzy scorers
(the statement holds for every environment), and no failure is possible
(the result is `some []`, never the `IndexError` marker `none`). -/
theorem c6_empty_input (env : Env) (x : PyInput) (top_n : ℤ)
    (h : normalize_text_py x = "") :
    robust_recommend env x top_n = some [] := by
  simp [robust_recommend, h]

/-- Witness for C6 at the three empty-normalizing inputs named by the spec:
the empty string, blanks only, and punctuation only. -/
theorem c6_empty_input_witness :
    robust_recommend exEnv (PyInput.pyStr "") 10 = some [] ∧
    robust_recommend exEnv (PyInput.pyStr "   ") 10 = some [] ∧
    robust_recommend exEnv (PyInput.pyStr "!!!") 10 = some [] :=
  ⟨c6_empty_input exEnv (PyInput.pyStr "") 10 (by decide),
   c6_empty_input exEnv (PyInput.pyStr "   ") 10 (by decide),
   c6_empty_input exEnv (PyInput.pyStr "!!!") 10 (by decide)⟩

/-- Claim C7 (confirmed): every sequence returned by `robust_recommend` is
sorted by non-increasing score — each adjacent pair has the earlier score
at least the later score. -/
theorem c7_sorted_output (env : Env) (x : PyInput) (top_n : ℤ)
    (l : List (String × ℚ)) (h : robust_recommend env x top_n = some l) :
    l.Chain' (fun p q => q.2 ≤ p.2) := by
  rcases robust_recommend_some_cases env x top_n l h with rfl | ⟨idx, rfl⟩
  · exact List.chain'_nil
  · exact (rank_pairwise env idx top_n).chain'

/-- Witness for C7 on the full pipeline at `exEnv` with query
`"Inception"`, whose result is `[("Batman", 80), ("Avatar", 70)]`. -/
theorem c7_sorted_output_witness :
    List.Chain' (fun (p : String × ℚ) q => q.2 ≤ p.2)
      [("Batman", (80 : ℚ)), ("Avatar", 70)] := by
  refine c7_sorted_output exEnv (PyInput.pyStr "Inception") 10 _ ?_
  have h1 : normalize_text_py (PyInput.pyStr "Inception") = "inception" := by decide
  have h2 : resolveTitle exEnv "inception" = some "inception" := by decide
  have h3 : (title_list exEnv).findIdx? (fun t => t = "inception") = some 0 := by decide
  simp only [robust_recommend, h1]
  rw [if_neg (by decide : ¬("inception" = ""))]
  simp only [recommendCore, h2]
  rw [if_neg (by decide : ¬("inception" = ""))]
  rw [h3]
  simp only [Option.some.injEq]
  norm_num [rank, acceptLoop, threshold, meanScore, topIndices, argsort,
    rankScores, exEnv, insSort, ordInsert, List.range_succ, pyRound2,
    roundHalfEven]

/-- Claim C8 (confirmed): `robust_recommend` is a pure function of the
environment and its input — two calls with identical input against the
same catalog/vector set produce identical output (same titles, same
scores, same order).  The embedding is stateless, mirroring the code,
which reads only the process-wide immutable catalog and vectors. -/
theorem c8_deterministic (env : Env) (x1 x2 : PyInput) (top_n : ℤ)
    (h : x1 = x2) :
    robust_recommend env x1 top_n = robust_recommend env x2 top_n := by
  rw [h]

/-- Witness for C8: two identical calls at `exEnv` agree. -/
theorem c8_deterministic_witness :
    robust_recommend exEnv (PyInput.pyStr "Batman") 10 =
      robust_recommend exEnv (PyInput.pyStr "Batman") 10 :=
  c8_deterministic exEnv (PyInput.pyStr "Batman") (PyInput.pyStr "Batman") 10 rfl

/-- Claim C9 (confirmed): `normalize_text` coerces its argument with
`str(...)` before lowering, so the Python value `None` normalizes to the
non-empty string `"none"`; consequently `robust_recommend(None)` does not
take the empty-input short-circuit but proceeds to title resolution with
the literal text `"none"` (for every environment and every `top_n`). -/
theorem c9_none_becomes_text_none :
    normalize_text_py PyInput.pyNone = "none" ∧
    normalize_text_py PyInput.pyNone ≠ "" ∧
    ∀ (env : Env) (top_n : ℤ),
      robust_recommend env PyInput.pyNone top_n = recommendCore env "none" top_n := by
  refine ⟨by decide, by decide, ?_⟩
  intro env top_n
  have h : normalize_text_py PyInput.pyNone = "none" := by decide
  simp [robust_recommend, h]

/-- Claim C10 (confirmed): whenever resolution succeeds — by the exact
membership test or by the fuzzy resolver — the resolved title is a member
of the clean-title list, so the lookup of the first catalog index with
that clean title (`.index[0]` on line 150) operates on a non-empty
selection and cannot fail. -/
theorem c10_resolved_title_in_catalog (env : Env) (m t : String)
    (h : resolveTitle env m = some t) :
    t ∈ title_list env ∧ ((title_list env).findIdx? (fun s => s = t)).isSome := by
  have hmem : t ∈ title_list env := by
    unfold resolveTitle at h
    by_cases hm : m ∈ title_list env
    · rw [if_pos hm] at h
      injection h with h
      rw [← h]
      exact hm
    · rw [if_neg hm] at h
      exact smart_match_movie_mem env m t h
  exact ⟨hmem, findIdx?_isSome_of_mem hmem⟩

/-- Witness for C10 at `exEnv` with the exactly-resolving query
`"inception"`. -/
theorem c10_resolved_title_in_catalog_witness :
    "inception" ∈ title_list exEnv ∧
    ((title_list exEnv).findIdx? (fun s => s = "inception")).isSome :=
  c10_resolved_title_in_catalog exEnv "inception" "inception" (by decide)
